import Mathlib

/-!
Shallow embedding of the duplicate-detection engine of `src/app/main.py`
(the `upload_files` endpoint of the Photo & Document Deduplicator API).

The engine state consists of two Python dicts (`image_hashes`, `doc_hashes`)
and two lists (`deleted_files`, `saved_files`).  Python dicts (3.7+) are
insertion-ordered: assigning to an existing key replaces its value in place,
keeping its position; assigning a fresh key appends at the end; `.items()`
and `.values()` iterate in that order.  We model a dict as an ordered
association list and dict assignment as `dictSet`.

External libraries are modelled as parameters:
  * `gih : Bytes → Option Fp` stands for `get_image_hash` (PIL decode +
    `imagehash.phash`); `none` is the decode-failure branch that returns
    `None` in the Python code.  Fingerprints are bit vectors compared by
    Hamming distance (`abs(h1 - h2)` on `ImageHash` counts differing bits).
  * `md5 : Bytes → String` stands for `hashlib.md5(...).hexdigest()`, which
    is total on byte strings, so `get_file_hash` always returns `some`.

Filename classification follows `os.path.splitext(filename)[1].lower()`
(POSIX `splitext`: the extension starts at the last dot after the last `/`,
unless every character between them is a dot).
-/

namespace DupPhoto

abbrev Bytes := List Nat

abbrev Fp := List Bool

/-- Hamming distance between two fingerprints: `abs(img_hash - existing_hash)`
in the source counts the positions where the underlying bit arrays differ. -/
def hamming (a b : Fp) : Nat :=
  (List.zipWith (fun x y => x != y) a b).count true

/-- `str.rfind(c)`: highest index of `c` in the list, `-1` if absent. -/
def rfindChar : List Char → Char → Int
  | [], _ => -1
  | a :: rest, c =>
    let r := rfindChar rest c
    if r ≥ 0 then r + 1 else if a = c then 0 else -1

/-- The extension part of POSIX `os.path.splitext`: the suffix starting at the
last `.` that lies after the last `/`, provided some character strictly
between the `/` and that `.` is not itself a dot; otherwise the empty
extension. -/
def splitextExt (p : List Char) : List Char :=
  let sepIndex := rfindChar p '/'
  let dotIndex := rfindChar p '.'
  if sepIndex < dotIndex then
    if ((p.take dotIndex.toNat).drop (sepIndex + 1).toNat).any (fun c => c != '.') then
      p.drop dotIndex.toNat
    else []
  else []

/-- `os.path.splitext(filename)[1].lower()` -/
def extOf (filename : String) : List Char :=
  (splitextExt filename.data).map Char.toLower

def image_extensions : List (List Char) :=
  [".jpg".data, ".jpeg".data, ".png".data, ".bmp".data, ".gif".data, ".tiff".data]

def document_extensions : List (List Char) :=
  [".pdf".data, ".docx".data, ".txt".data]

def IMAGE_HASH_THRESHOLD : Nat := 5

/-- One uploaded file: its (caller-supplied, untrusted) filename and content. -/
structure Item where
  filename : String
  content : Bytes
deriving DecidableEq

/-- `get_file_hash`: `hashlib.md5` is total on byte strings, so the
`except` branch returning `None` is unreachable and the result is always
`some` of the digest. -/
def get_file_hash (md5 : Bytes → String) (b : Bytes) : Option String :=
  some (md5 b)

/-- The mutable state of one `upload_files` invocation. -/
structure UploadState where
  image_hashes : List (String × Fp)
  doc_hashes : List (String × Option String)
  deleted_files : List String
  saved_files : List String
deriving DecidableEq

def initState : UploadState := ⟨[], [], [], []⟩

/-- Python dict assignment `d[k] = v` on an insertion-ordered dict:
replace in place if the key is present, else append. -/
def dictSet {β : Type} : List (String × β) → String → β → List (String × β)
  | [], k, v => [(k, v)]
  | (k', v') :: rest, k, v =>
    if k' = k then (k, v) :: rest else (k', v') :: dictSet rest k v

/-- The body of the `for file in files` loop of `upload_files`. -/
def processItem (gih : Bytes → Option Fp) (md5 : Bytes → String)
    (s : UploadState) (it : Item) : UploadState :=
  if extOf it.filename ∈ image_extensions then
    match gih it.content with
    | none => s
    | some img_hash =>
      match s.image_hashes.find?
          (fun e => decide (hamming img_hash e.2 ≤ IMAGE_HASH_THRESHOLD)) with
      | some _ => { s with deleted_files := s.deleted_files ++ [it.filename] }
      | none =>
        { s with image_hashes := dictSet s.image_hashes it.filename img_hash,
                 saved_files := s.saved_files ++ [it.filename] }
  else if extOf it.filename ∈ document_extensions then
    if get_file_hash md5 it.content ∈ s.doc_hashes.map Prod.snd then
      { s with deleted_files := s.deleted_files ++ [it.filename] }
    else
      { s with doc_hashes := dictSet s.doc_hashes it.filename (get_file_hash md5 it.content),
               saved_files := s.saved_files ++ [it.filename] }
  else s

/-- The whole loop of `upload_files` over the batch, starting from the
freshly created empty dicts and lists. -/
def upload_files (gih : Bytes → Option Fp) (md5 : Bytes → String)
    (files : List Item) : UploadState :=
  files.foldl (processItem gih md5) initState

/-- Concrete stand-in for `get_image_hash` used in closed instances:
empty bytes fail to decode, anything else maps to the parity bit vector. -/
def gih0 : Bytes → Option Fp :=
  fun b => if b = [] then none else some (b.map (fun n => n % 2 == 1))

/-- Concrete stand-in digest used in closed instances (injective on the
byte lengths used there, as the real md5 is on those inputs). -/
def md50 : Bytes → String :=
  fun b => toString b.length

/-! ### Helper lemmas about the ingredients -/

theorem hamming_comm (a b : Fp) : hamming a b = hamming b a := by
  unfold hamming
  induction a generalizing b with
  | nil => cases b <;> rfl
  | cons x xs ih =>
    cases b with
    | nil => rfl
    | cons y ys =>
      simp only [List.zipWith, List.count_cons]
      rw [ih ys]
      congr 1
      cases x <;> cases y <;> rfl

theorem mem_dictSet {β : Type} (d : List (String × β)) (k : String) (v : β)
    (e : String × β) (he : e ∈ dictSet d k v) : e = (k, v) ∨ e ∈ d := by
  induction d with
  | nil => simpa [dictSet] using he
  | cons a rest ih =>
    obtain ⟨k', v'⟩ := a
    by_cases hk : k' = k
    · simp only [dictSet, if_pos hk, List.mem_cons] at he
      rcases he with h | h
      · exact Or.inl h
      · exact Or.inr (List.mem_cons_of_mem _ h)
    · simp only [dictSet, if_neg hk, List.mem_cons] at he
      rcases he with h | h
      · exact Or.inr (by rw [h]; exact List.mem_cons_self _ _)
      · rcases ih h with h1 | h1
        · exact Or.inl h1
        · exact Or.inr (List.mem_cons_of_mem _ h1)

theorem dictSet_self_mem {β : Type} (d : List (String × β)) (k : String) (v : β) :
    (k, v) ∈ dictSet d k v := by
  induction d with
  | nil => simp [dictSet]
  | cons a rest ih =>
    obtain ⟨k', v'⟩ := a
    by_cases hk : k' = k
    · simp [dictSet, if_pos hk]
    · simp only [dictSet, if_neg hk, List.mem_cons]
      exact Or.inr ih

theorem dictSet_mem_of_ne {β : Type} (d : List (String × β)) (k : String) (v : β)
    (e : String × β) (he : e ∈ d) (hne : e.1 ≠ k) : e ∈ dictSet d k v := by
  induction d with
  | nil => cases he
  | cons a rest ih =>
    obtain ⟨k', v'⟩ := a
    rcases List.mem_cons.1 he with h | h
    · by_cases hk : k' = k
      · exact absurd (h ▸ hk : e.1 = k) hne
      · simp only [dictSet, if_neg hk, List.mem_cons]
        exact Or.inl h
    · by_cases hk : k' = k
      · simp only [dictSet, if_pos hk, List.mem_cons]
        exact Or.inr h
      · simp only [dictSet, if_neg hk, List.mem_cons]
        exact Or.inr (ih h)

theorem dictSet_eq_append {β : Type} (d : List (String × β)) (k : String) (v : β)
    (hk : k ∉ d.map Prod.fst) : dictSet d k v = d ++ [(k, v)] := by
  induction d with
  | nil => rfl
  | cons a rest ih =>
    obtain ⟨k', v'⟩ := a
    simp only [List.map_cons, List.mem_cons] at hk
    push_neg at hk
    simp only [dictSet, if_neg (fun (h : k' = k) => hk.1 h.symm)]
    rw [ih hk.2, List.cons_append]

theorem dictSet_keys_sub {β : Type} (d : List (String × β)) (k : String) (v : β)
    (x : String) (hx : x ∈ (dictSet d k v).map Prod.fst) :
    x = k ∨ x ∈ d.map Prod.fst := by
  rcases List.mem_map.1 hx with ⟨e, he, hxe⟩
  rcases mem_dictSet d k v e he with h | h
  · exact Or.inl (hxe ▸ h ▸ rfl)
  · exact Or.inr (hxe ▸ List.mem_map_of_mem Prod.fst h)

theorem pairwise_dictSet {β : Type} (R : String × β → String × β → Prop)
    (d : List (String × β)) (k : String) (v : β)
    (hd : d.Pairwise R)
    (h1 : ∀ e ∈ d, R e (k, v)) (h2 : ∀ e ∈ d, R (k, v) e) :
    (dictSet d k v).Pairwise R := by
  induction d with
  | nil => simp [dictSet]
  | cons a rest ih =>
    obtain ⟨k', v'⟩ := a
    rcases List.pairwise_cons.1 hd with ⟨hhead, hrest⟩
    by_cases hk : k' = k
    · simp only [dictSet, if_pos hk]
      exact List.pairwise_cons.2
        ⟨fun e he => h2 e (List.mem_cons_of_mem _ he), hrest⟩
    · simp only [dictSet, if_neg hk]
      refine List.pairwise_cons.2 ⟨?_, ?_⟩
      · intro e he
        rcases mem_dictSet rest k v e he with h | h
        · exact h ▸ h1 (k', v') (List.mem_cons_self _ _)
        · exact hhead e h
      · exact ih hrest (fun e he => h1 e (List.mem_cons_of_mem _ he))
          (fun e he => h2 e (List.mem_cons_of_mem _ he))

theorem doc_not_image (e : List Char) (he : e ∈ document_extensions) :
    e ∉ image_extensions := by
  fin_cases he <;> decide

/-! ### Branch equations for one loop iteration -/

theorem processItem_img_none (gih : Bytes → Option Fp) (md5 : Bytes → String)
    (s : UploadState) (it : Item)
    (hi : extOf it.filename ∈ image_extensions)
    (hg : gih it.content = none) :
    processItem gih md5 s it = s := by
  unfold processItem
  rw [if_pos hi, hg]

theorem processItem_img_dup (gih : Bytes → Option Fp) (md5 : Bytes → String)
    (s : UploadState) (it : Item) (img_hash : Fp) (e : String × Fp)
    (hi : extOf it.filename ∈ image_extensions)
    (hg : gih it.content = some img_hash)
    (hf : s.image_hashes.find?
        (fun e => decide (hamming img_hash e.2 ≤ IMAGE_HASH_THRESHOLD)) = some e) :
    processItem gih md5 s it
      = { s with deleted_files := s.deleted_files ++ [it.filename] } := by
  unfold processItem
  rw [if_pos hi, hg]
  show (match s.image_hashes.find?
      (fun e => decide (hamming img_hash e.2 ≤ IMAGE_HASH_THRESHOLD)) with
    | some _ => { s with deleted_files := s.deleted_files ++ [it.filename] }
    | none =>
      { s with image_hashes := dictSet s.image_hashes it.filename img_hash,
               saved_files := s.saved_files ++ [it.filename] }) = _
  rw [hf]

theorem processItem_img_new (gih : Bytes → Option Fp) (md5 : Bytes → String)
    (s : UploadState) (it : Item) (img_hash : Fp)
    (hi : extOf it.filename ∈ image_extensions)
    (hg : gih it.content = some img_hash)
    (hf : s.image_hashes.find?
        (fun e => decide (hamming img_hash e.2 ≤ IMAGE_HASH_THRESHOLD)) = none) :
    processItem gih md5 s it
      = { s with image_hashes := dictSet s.image_hashes it.filename img_hash,
                 saved_files := s.saved_files ++ [it.filename] } := by
  unfold processItem
  rw [if_pos hi, hg]
  show (match s.image_hashes.find?
      (fun e => decide (hamming img_hash e.2 ≤ IMAGE_HASH_THRESHOLD)) with
    | some _ => { s with deleted_files := s.deleted_files ++ [it.filename] }
    | none =>
      { s with image_hashes := dictSet s.image_hashes it.filename img_hash,
               saved_files := s.saved_files ++ [it.filename] }) = _
  rw [hf]

theorem processItem_doc_dup (gih : Bytes → Option Fp) (md5 : Bytes → String)
    (s : UploadState) (it : Item)
    (hi : extOf it.filename ∉ image_extensions)
    (hd : extOf it.filename ∈ document_extensions)
    (hm : get_file_hash md5 it.content ∈ s.doc_hashes.map Prod.snd) :
    processItem gih md5 s it
      = { s with deleted_files := s.deleted_files ++ [it.filename] } := by
  unfold processItem
  rw [if_neg hi, if_pos hd, if_pos hm]

theorem processItem_doc_new (gih : Bytes → Option Fp) (md5 : Bytes → String)
    (s : UploadState) (it : Item)
    (hi : extOf it.filename ∉ image_extensions)
    (hd : extOf it.filename ∈ document_extensions)
    (hm : get_file_hash md5 it.content ∉ s.doc_hashes.map Prod.snd) :
    processItem gih md5 s it
      = { s with doc_hashes := dictSet s.doc_hashes it.filename (get_file_hash md5 it.content),
                 saved_files := s.saved_files ++ [it.filename] } := by
  unfold processItem
  rw [if_neg hi, if_pos hd, if_neg hm]

/-- An item whose extension classifies into neither family, or an image item
whose bytes fail to decode, leaves the state untouched. -/
theorem processItem_skip (gih : Bytes → Option Fp) (md5 : Bytes → String)
    (s : UploadState) (it : Item)
    (h : (extOf it.filename ∉ image_extensions ∧ extOf it.filename ∉ document_extensions)
        ∨ (extOf it.filename ∈ image_extensions ∧ gih it.content = none)) :
    processItem gih md5 s it = s := by
  rcases h with ⟨h1, h2⟩ | ⟨h1, h2⟩
  · unfold processItem
    rw [if_neg h1, if_neg h2]
  · exact processItem_img_none gih md5 s it h1 h2

/-! ### Shape lemmas for one loop iteration -/

theorem processItem_cases (gih : Bytes → Option Fp) (md5 : Bytes → String)
    (s : UploadState) (it : Item) :
    processItem gih md5 s it = s
    ∨ processItem gih md5 s it = { s with deleted_files := s.deleted_files ++ [it.filename] }
    ∨ (∃ img_hash, gih it.content = some img_hash ∧
        processItem gih md5 s it
          = { s with image_hashes := dictSet s.image_hashes it.filename img_hash,
                     saved_files := s.saved_files ++ [it.filename] })
    ∨ processItem gih md5 s it
        = { s with doc_hashes := dictSet s.doc_hashes it.filename (get_file_hash md5 it.content),
                   saved_files := s.saved_files ++ [it.filename] } := by
  by_cases hi : extOf it.filename ∈ image_extensions
  · cases hg : gih it.content with
    | none => exact Or.inl (processItem_img_none gih md5 s it hi hg)
    | some img_hash =>
      cases hf : s.image_hashes.find?
          (fun e => decide (hamming img_hash e.2 ≤ IMAGE_HASH_THRESHOLD)) with
      | some e =>
        exact Or.inr (Or.inl (processItem_img_dup gih md5 s it img_hash e hi hg hf))
      | none =>
        exact Or.inr (Or.inr (Or.inl
          ⟨img_hash, rfl, processItem_img_new gih md5 s it img_hash hi hg hf⟩))
  · by_cases hd : extOf it.filename ∈ document_extensions
    · by_cases hm : get_file_hash md5 it.content ∈ s.doc_hashes.map Prod.snd
      · exact Or.inr (Or.inl (processItem_doc_dup gih md5 s it hi hd hm))
      · exact Or.inr (Or.inr (Or.inr (processItem_doc_new gih md5 s it hi hd hm)))
    · exact Or.inl (processItem_skip gih md5 s it (Or.inl ⟨hi, hd⟩))

theorem processItem_saved (gih : Bytes → Option Fp) (md5 : Bytes → String)
    (s : UploadState) (it : Item) :
    (processItem gih md5 s it).saved_files = s.saved_files ∨
      (processItem gih md5 s it).saved_files = s.saved_files ++ [it.filename] := by
  rcases processItem_cases gih md5 s it with h | h | ⟨fp, _, h⟩ | h <;>
    rw [h] <;> simp

theorem processItem_deleted (gih : Bytes → Option Fp) (md5 : Bytes → String)
    (s : UploadState) (it : Item) :
    (processItem gih md5 s it).deleted_files = s.deleted_files ∨
      (processItem gih md5 s it).deleted_files = s.deleted_files ++ [it.filename] := by
  rcases processItem_cases gih md5 s it with h | h | ⟨fp, _, h⟩ | h <;>
    rw [h] <;> simp

theorem processItem_image_hashes (gih : Bytes → Option Fp) (md5 : Bytes → String)
    (s : UploadState) (it : Item) :
    (processItem gih md5 s it).image_hashes = s.image_hashes ∨
      ∃ h, gih it.content = some h ∧
        (processItem gih md5 s it).image_hashes = dictSet s.image_hashes it.filename h := by
  rcases processItem_cases gih md5 s it with h | h | ⟨fp, hfp, h⟩ | h
  · exact Or.inl (by rw [h])
  · exact Or.inl (by rw [h])
  · exact Or.inr ⟨fp, hfp, by rw [h]⟩
  · exact Or.inl (by rw [h])

theorem processItem_doc_hashes (gih : Bytes → Option Fp) (md5 : Bytes → String)
    (s : UploadState) (it : Item) :
    (processItem gih md5 s it).doc_hashes = s.doc_hashes ∨
      (processItem gih md5 s it).doc_hashes
        = dictSet s.doc_hashes it.filename (some (md5 it.content)) := by
  rcases processItem_cases gih md5 s it with h | h | ⟨fp, _, h⟩ | h
  · exact Or.inl (by rw [h])
  · exact Or.inl (by rw [h])
  · exact Or.inl (by rw [h])
  · exact Or.inr (by rw [h]; rfl)

/-! ### Fold lemmas over the whole batch -/

theorem upload_files_append (gih : Bytes → Option Fp) (md5 : Bytes → String)
    (l1 l2 : List Item) :
    upload_files gih md5 (l1 ++ l2)
      = l2.foldl (processItem gih md5) (upload_files gih md5 l1) :=
  List.foldl_append _ _ _ _

theorem foldl_preserve (gih : Bytes → Option Fp) (md5 : Bytes → String)
    (P : UploadState → Prop) (l : List Item) (s : UploadState) (hs : P s)
    (hstep : ∀ t it, it ∈ l → P t → P (processItem gih md5 t it)) :
    P (l.foldl (processItem gih md5) s) := by
  induction l generalizing s with
  | nil => exact hs
  | cons a rest ih =>
    exact ih (processItem gih md5 s a)
      (hstep s a (List.mem_cons_self _ _) hs)
      (fun t it hit => hstep t it (List.mem_cons_of_mem _ hit))

theorem foldl_saved_extend (gih : Bytes → Option Fp) (md5 : Bytes → String)
    (l : List Item) (s : UploadState) :
    ∃ r, (l.foldl (processItem gih md5) s).saved_files = s.saved_files ++ r
      ∧ ∀ n ∈ r, n ∈ l.map Item.filename := by
  induction l generalizing s with
  | nil => exact ⟨[], by simp⟩
  | cons a rest ih =>
    rcases ih (processItem gih md5 s a) with ⟨r, hr, hsub⟩
    rcases processItem_saved gih md5 s a with h | h
    · exact ⟨r, by simpa [h] using hr,
        fun n hn => List.mem_cons_of_mem _ (hsub n hn)⟩
    · refine ⟨[a.filename] ++ r, ?_, ?_⟩
      · rw [List.foldl_cons, hr, h, List.append_assoc]
      · intro n hn
        rcases List.mem_append.1 hn with h1 | h1
        · simp only [List.mem_singleton] at h1
          simp [h1]
        · exact List.mem_cons_of_mem _ (hsub n h1)

theorem foldl_deleted_extend (gih : Bytes → Option Fp) (md5 : Bytes → String)
    (l : List Item) (s : UploadState) :
    ∃ r, (l.foldl (processItem gih md5) s).deleted_files = s.deleted_files ++ r
      ∧ ∀ n ∈ r, n ∈ l.map Item.filename := by
  induction l generalizing s with
  | nil => exact ⟨[], by simp⟩
  | cons a rest ih =>
    rcases ih (processItem gih md5 s a) with ⟨r, hr, hsub⟩
    rcases processItem_deleted gih md5 s a with h | h
    · exact ⟨r, by simpa [h] using hr,
        fun n hn => List.mem_cons_of_mem _ (hsub n hn)⟩
    · refine ⟨[a.filename] ++ r, ?_, ?_⟩
      · rw [List.foldl_cons, hr, h, List.append_assoc]
      · intro n hn
        rcases List.mem_append.1 hn with h1 | h1
        · simp only [List.mem_singleton] at h1
          simp [h1]
        · exact List.mem_cons_of_mem _ (hsub n h1)

/-- Every key of either index after a run is the filename of some processed
item. -/
theorem foldl_keys_sub (gih : Bytes → Option Fp) (md5 : Bytes → String)
    (l : List Item) (s : UploadState)
    (A : List String)
    (hA1 : ∀ x ∈ s.image_hashes.map Prod.fst, x ∈ A)
    (hA2 : ∀ x ∈ s.doc_hashes.map Prod.fst, x ∈ A)
    (hA3 : ∀ it ∈ l, it.filename ∈ A) :
    (∀ x ∈ (l.foldl (processItem gih md5) s).image_hashes.map Prod.fst, x ∈ A)
    ∧ (∀ x ∈ (l.foldl (processItem gih md5) s).doc_hashes.map Prod.fst, x ∈ A) := by
  refine foldl_preserve gih md5
    (fun t => (∀ x ∈ t.image_hashes.map Prod.fst, x ∈ A)
      ∧ (∀ x ∈ t.doc_hashes.map Prod.fst, x ∈ A)) l s ⟨hA1, hA2⟩ ?_
  intro t it hit ⟨h1, h2⟩
  constructor
  · intro x hx
    rcases processItem_image_hashes gih md5 t it with h | ⟨fp, _, h⟩
    · exact h1 x (h ▸ hx)
    · rcases dictSet_keys_sub t.image_hashes it.filename fp x (h ▸ hx) with hh | hh
      · exact hh ▸ hA3 it hit
      · exact h1 x hh
  · intro x hx
    rcases processItem_doc_hashes gih md5 t it with h | h
    · exact h2 x (h ▸ hx)
    · rcases dictSet_keys_sub t.doc_hashes it.filename (some (md5 it.content)) x
        (h ▸ hx) with hh | hh
      · exact hh ▸ hA3 it hit
      · exact h2 x hh

/-! ### Claim theorems -/

/-- C3: at every point during the processing of one batch, the stored entries
of each family are pairwise non-duplicate under that family's rule: no two
fingerprints held in the image index are within Hamming distance 5 of each
other, and no two digests held in the document index are equal.  Quantifying
over all input sequences covers the state after every prefix of a batch. -/
theorem C3_theorem (gih : Bytes → Option Fp) (md5 : Bytes → String)
    (files : List Item) :
    ((upload_files gih md5 files).image_hashes.Pairwise
        (fun a b => ¬ hamming a.2 b.2 ≤ IMAGE_HASH_THRESHOLD))
    ∧ ((upload_files gih md5 files).doc_hashes.Pairwise (fun a b => a.2 ≠ b.2)) := by
  refine foldl_preserve gih md5
    (fun t => (t.image_hashes.Pairwise
        (fun a b => ¬ hamming a.2 b.2 ≤ IMAGE_HASH_THRESHOLD))
      ∧ (t.doc_hashes.Pairwise (fun a b => a.2 ≠ b.2)))
    files initState ⟨List.Pairwise.nil, List.Pairwise.nil⟩ ?_
  intro t it _ hinv
  obtain ⟨h1, h2⟩ := hinv
  by_cases hi : extOf it.filename ∈ image_extensions
  · cases hg : gih it.content with
    | none => rw [processItem_img_none gih md5 t it hi hg]; exact ⟨h1, h2⟩
    | some img_hash =>
      cases hf : t.image_hashes.find?
          (fun e => decide (hamming img_hash e.2 ≤ IMAGE_HASH_THRESHOLD)) with
      | some e =>
        rw [processItem_img_dup gih md5 t it img_hash e hi hg hf]
        exact ⟨h1, h2⟩
      | none =>
        rw [processItem_img_new gih md5 t it img_hash hi hg hf]
        have hfar : ∀ e ∈ t.image_hashes, ¬ hamming img_hash e.2 ≤ IMAGE_HASH_THRESHOLD := by
          intro e he hc
          exact List.find?_eq_none.1 hf e he (decide_eq_true hc)
        refine ⟨pairwise_dictSet _ _ _ _ h1 ?_ ?_, h2⟩
        · intro e he
          rw [hamming_comm]
          exact hfar e he
        · intro e he
          exact hfar e he
  · by_cases hd : extOf it.filename ∈ document_extensions
    · by_cases hm : get_file_hash md5 it.content ∈ t.doc_hashes.map Prod.snd
      · rw [processItem_doc_dup gih md5 t it hi hd hm]
        exact ⟨h1, h2⟩
      · rw [processItem_doc_new gih md5 t it hi hd hm]
        have hne : ∀ e ∈ t.doc_hashes, e.2 ≠ get_file_hash md5 it.content := by
          intro e he hc
          exact hm (hc ▸ List.mem_map_of_mem Prod.snd he)
        refine ⟨h1, pairwise_dictSet _ _ _ _ h2 ?_ ?_⟩
        · intro e he
          exact hne e he
        · intro e he
          exact fun hc => hne e he hc.symm
    · rw [processItem_skip gih md5 t it (Or.inl ⟨hi, hd⟩)]
      exact ⟨h1, h2⟩

/-- C5: an image item whose bytes fail to decode contributes nothing: the
whole batch behaves exactly as if the item were absent, so it appears in
neither output list, leaves the index state untouched, and never aborts the
processing of the remaining items. -/
theorem C5_theorem (gih : Bytes → Option Fp) (md5 : Bytes → String)
    (l1 l2 : List Item) (it : Item)
    (hi : extOf it.filename ∈ image_extensions)
    (hg : gih it.content = none) :
    upload_files gih md5 (l1 ++ it :: l2) = upload_files gih md5 (l1 ++ l2) := by
  rw [upload_files_append, upload_files_append, List.foldl_cons,
    processItem_img_none gih md5 _ it hi hg]

/-- C5 witness at a concrete batch: an undecodable image alongside a valid
document; the run equals the run without the image. -/
theorem C5_witness :
    upload_files gih0 md50 ([] ++ ⟨"a.jpg", []⟩ :: [⟨"b.txt", [0]⟩])
      = upload_files gih0 md50 ([] ++ [⟨"b.txt", [0]⟩]) :=
  C5_theorem gih0 md50 [] [⟨"b.txt", [0]⟩] ⟨"a.jpg", []⟩ (by decide) (by decide)

/-- C7: the engine is deterministic: two runs of the same batch from freshly
constructed engines (empty indexes and result lists) produce identical
accepted and duplicate lists. -/
theorem C7_theorem (gih : Bytes → Option Fp) (md5 : Bytes → String)
    (files : List Item) (s1 s2 : UploadState)
    (h1 : s1 = initState) (h2 : s2 = initState) :
    (files.foldl (processItem gih md5) s1).saved_files
        = (files.foldl (processItem gih md5) s2).saved_files
    ∧ (files.foldl (processItem gih md5) s1).deleted_files
        = (files.foldl (processItem gih md5) s2).deleted_files := by
  subst h1
  subst h2
  exact ⟨rfl, rfl⟩

/-- C7 witness: a concrete batch run twice from fresh state. -/
theorem C7_witness :
    ([⟨"a.jpg", [2]⟩, ⟨"b.txt", [0]⟩].foldl (processItem gih0 md50) initState).saved_files
        = ([⟨"a.jpg", [2]⟩, ⟨"b.txt", [0]⟩].foldl (processItem gih0 md50) initState).saved_files
    ∧ ([⟨"a.jpg", [2]⟩, ⟨"b.txt", [0]⟩].foldl (processItem gih0 md50) initState).deleted_files
        = ([⟨"a.jpg", [2]⟩, ⟨"b.txt", [0]⟩].foldl (processItem gih0 md50) initState).deleted_files :=
  C7_theorem gih0 md50 [⟨"a.jpg", [2]⟩, ⟨"b.txt", [0]⟩] initState initState rfl rfl

/-- C8: for two image items whose fingerprints are within Hamming distance 5
of each other, processing them as a two-item batch in either order accepts
exactly the first-processed item and flags the other as the duplicate, so the
total count of accepted plus duplicate entries is invariant under reversal. -/
theorem C8_theorem (gih : Bytes → Option Fp) (md5 : Bytes → String)
    (n1 n2 : String) (b1 b2 : Bytes) (h1 h2 : Fp)
    (hx1 : extOf n1 ∈ image_extensions) (hx2 : extOf n2 ∈ image_extensions)
    (hd1 : gih b1 = some h1) (hd2 : gih b2 = some h2)
    (hclose : hamming h1 h2 ≤ IMAGE_HASH_THRESHOLD) :
    (upload_files gih md5 [⟨n1, b1⟩, ⟨n2, b2⟩]).saved_files = [n1]
    ∧ (upload_files gih md5 [⟨n1, b1⟩, ⟨n2, b2⟩]).deleted_files = [n2]
    ∧ (upload_files gih md5 [⟨n2, b2⟩, ⟨n1, b1⟩]).saved_files = [n2]
    ∧ (upload_files gih md5 [⟨n2, b2⟩, ⟨n1, b1⟩]).deleted_files = [n1]
    ∧ (upload_files gih md5 [⟨n1, b1⟩, ⟨n2, b2⟩]).saved_files.length
        + (upload_files gih md5 [⟨n1, b1⟩, ⟨n2, b2⟩]).deleted_files.length
      = (upload_files gih md5 [⟨n2, b2⟩, ⟨n1, b1⟩]).saved_files.length
        + (upload_files gih md5 [⟨n2, b2⟩, ⟨n1, b1⟩]).deleted_files.length := by
  have hs1 : processItem gih md5 initState ⟨n1, b1⟩ = ⟨[(n1, h1)], [], [], [n1]⟩ :=
    processItem_img_new gih md5 initState ⟨n1, b1⟩ h1 hx1 hd1 rfl
  have hf12 : ([(n1, h1)] : List (String × Fp)).find?
      (fun e => decide (hamming h2 e.2 ≤ IMAGE_HASH_THRESHOLD)) = some (n1, h1) :=
    List.find?_cons_of_pos _ (decide_eq_true (hamming_comm h2 h1 ▸ hclose))
  have hs2 : processItem gih md5 (⟨[(n1, h1)], [], [], [n1]⟩ : UploadState) ⟨n2, b2⟩
      = ⟨[(n1, h1)], [], [n2], [n1]⟩ :=
    processItem_img_dup gih md5 _ ⟨n2, b2⟩ h2 (n1, h1) hx2 hd2 hf12
  have hA : upload_files gih md5 [⟨n1, b1⟩, ⟨n2, b2⟩] = ⟨[(n1, h1)], [], [n2], [n1]⟩ := by
    show processItem gih md5 (processItem gih md5 initState ⟨n1, b1⟩) ⟨n2, b2⟩ = _
    rw [hs1, hs2]
  have ht1 : processItem gih md5 initState ⟨n2, b2⟩ = ⟨[(n2, h2)], [], [], [n2]⟩ :=
    processItem_img_new gih md5 initState ⟨n2, b2⟩ h2 hx2 hd2 rfl
  have hf21 : ([(n2, h2)] : List (String × Fp)).find?
      (fun e => decide (hamming h1 e.2 ≤ IMAGE_HASH_THRESHOLD)) = some (n2, h2) :=
    List.find?_cons_of_pos _ (decide_eq_true hclose)
  have ht2 : processItem gih md5 (⟨[(n2, h2)], [], [], [n2]⟩ : UploadState) ⟨n1, b1⟩
      = ⟨[(n2, h2)], [], [n1], [n2]⟩ :=
    processItem_img_dup gih md5 _ ⟨n1, b1⟩ h1 (n2, h2) hx1 hd1 hf21
  have hB : upload_files gih md5 [⟨n2, b2⟩, ⟨n1, b1⟩] = ⟨[(n2, h2)], [], [n1], [n2]⟩ := by
    show processItem gih md5 (processItem gih md5 initState ⟨n2, b2⟩) ⟨n1, b1⟩ = _
    rw [ht1, ht2]
  rw [hA, hB]
  exact ⟨rfl, rfl, rfl, rfl, rfl⟩

/-- C8 witness: two concrete images with fingerprints at distance 0. -/
theorem C8_witness :
    (upload_files gih0 md50 [⟨"a.jpg", [2]⟩, ⟨"b.jpg", [4]⟩]).saved_files = ["a.jpg"]
    ∧ (upload_files gih0 md50 [⟨"a.jpg", [2]⟩, ⟨"b.jpg", [4]⟩]).deleted_files = ["b.jpg"]
    ∧ (upload_files gih0 md50 [⟨"b.jpg", [4]⟩, ⟨"a.jpg", [2]⟩]).saved_files = ["b.jpg"]
    ∧ (upload_files gih0 md50 [⟨"b.jpg", [4]⟩, ⟨"a.jpg", [2]⟩]).deleted_files = ["a.jpg"]
    ∧ (upload_files gih0 md50 [⟨"a.jpg", [2]⟩, ⟨"b.jpg", [4]⟩]).saved_files.length
        + (upload_files gih0 md50 [⟨"a.jpg", [2]⟩, ⟨"b.jpg", [4]⟩]).deleted_files.length
      = (upload_files gih0 md50 [⟨"b.jpg", [4]⟩, ⟨"a.jpg", [2]⟩]).saved_files.length
        + (upload_files gih0 md50 [⟨"b.jpg", [4]⟩, ⟨"a.jpg", [2]⟩]).deleted_files.length :=
  C8_theorem gih0 md50 "a.jpg" "b.jpg" [2] [4] [false] [false]
    (by decide) (by decide) (by decide) (by decide) (by decide)

/-- C9: the two family indexes are independent.  Processing an image item
neither reads nor modifies the document index: the run commutes with an
arbitrary replacement of the document index.  Symmetrically for a document
item and the image index.  In particular an image and a document are never
compared, even with identical bytes. -/
theorem C9_theorem (gih : Bytes → Option Fp) (md5 : Bytes → String)
    (it : Item) (s : UploadState) :
    (extOf it.filename ∈ image_extensions →
      ∀ d, processItem gih md5 { s with doc_hashes := d } it
            = { processItem gih md5 s it with doc_hashes := d })
    ∧ (extOf it.filename ∈ document_extensions →
      ∀ im, processItem gih md5 { s with image_hashes := im } it
            = { processItem gih md5 s it with image_hashes := im }) := by
  constructor
  · intro hi d
    cases hg : gih it.content with
    | none =>
      rw [processItem_img_none gih md5 s it hi hg]
      exact processItem_img_none gih md5 { s with doc_hashes := d } it hi hg
    | some img_hash =>
      cases hf : s.image_hashes.find?
          (fun e => decide (hamming img_hash e.2 ≤ IMAGE_HASH_THRESHOLD)) with
      | some e =>
        rw [processItem_img_dup gih md5 s it img_hash e hi hg hf]
        exact processItem_img_dup gih md5 { s with doc_hashes := d } it img_hash e hi hg hf
      | none =>
        rw [processItem_img_new gih md5 s it img_hash hi hg hf]
        exact processItem_img_new gih md5 { s with doc_hashes := d } it img_hash hi hg hf
  · intro hd im
    have hi : extOf it.filename ∉ image_extensions := doc_not_image _ hd
    by_cases hm : get_file_hash md5 it.content ∈ s.doc_hashes.map Prod.snd
    · rw [processItem_doc_dup gih md5 s it hi hd hm]
      exact processItem_doc_dup gih md5 { s with image_hashes := im } it hi hd hm
    · rw [processItem_doc_new gih md5 s it hi hd hm]
      exact processItem_doc_new gih md5 { s with image_hashes := im } it hi hd hm

/-- C9 witness: a concrete image item run against a modified document index,
and a concrete document item run against a modified image index. -/
theorem C9_witness :
    (processItem gih0 md50 { initState with doc_hashes := [("x.txt", some "9")] } ⟨"a.jpg", [2]⟩
        = { processItem gih0 md50 initState ⟨"a.jpg", [2]⟩
              with doc_hashes := [("x.txt", some "9")] })
    ∧ (processItem gih0 md50 { initState with image_hashes := [("y.jpg", [true])] } ⟨"b.txt", [0]⟩
        = { processItem gih0 md50 initState ⟨"b.txt", [0]⟩
              with image_hashes := [("y.jpg", [true])] }) :=
  ⟨(C9_theorem gih0 md50 ⟨"a.jpg", [2]⟩ initState).1 (by decide) [("x.txt", some "9")],
   (C9_theorem gih0 md50 ⟨"b.txt", [0]⟩ initState).2 (by decide) [("y.jpg", [true])]⟩

/-- C10: the document digest computation is total — `hashlib.md5` accepts
every byte string (including the empty one), so `get_file_hash` always
returns a digest and its `None` branch is unreachable; consequently the
document index never holds a `None` fingerprint, and a document item always
lands in exactly one of the result lists, never dropped from both. -/
theorem C10_theorem (gih : Bytes → Option Fp) (md5 : Bytes → String) :
    (∀ b : Bytes, (get_file_hash md5 b).isSome = true)
    ∧ (∀ (files : List Item) (e : String × Option String),
        e ∈ (upload_files gih md5 files).doc_hashes → e.2.isSome = true)
    ∧ (∀ (files : List Item) (it : Item), it ∈ files →
        extOf it.filename ∈ document_extensions →
        it.filename ∈ (upload_files gih md5 files).saved_files
        ∨ it.filename ∈ (upload_files gih md5 files).deleted_files) := by
  refine ⟨fun b => rfl, ?_, ?_⟩
  · intro files
    refine foldl_preserve gih md5
      (fun t => ∀ e ∈ t.doc_hashes, e.2.isSome = true) files initState
      (by intro e he; cases he) ?_
    intro t it _ hinv e he
    rcases processItem_doc_hashes gih md5 t it with h | h
    · exact hinv e (h ▸ he)
    · rcases mem_dictSet _ _ _ e (h ▸ he) with h1 | h1
      · rw [h1]; rfl
      · exact hinv e h1
  · intro files it hmem hd
    obtain ⟨l3, l4, rfl⟩ := List.append_of_mem hmem
    rw [upload_files_append, List.foldl_cons]
    have hi : extOf it.filename ∉ image_extensions := doc_not_image _ hd
    have hstep : it.filename ∈ (processItem gih md5 (upload_files gih md5 l3) it).saved_files
        ∨ it.filename ∈ (processItem gih md5 (upload_files gih md5 l3) it).deleted_files := by
      by_cases hm : get_file_hash md5 it.content
          ∈ (upload_files gih md5 l3).doc_hashes.map Prod.snd
      · rw [processItem_doc_dup gih md5 _ it hi hd hm]
        exact Or.inr (by simp)
      · rw [processItem_doc_new gih md5 _ it hi hd hm]
        exact Or.inl (by simp)
    refine foldl_preserve gih md5
      (fun t => it.filename ∈ t.saved_files ∨ it.filename ∈ t.deleted_files)
      l4 _ hstep ?_
    intro t x _ hin
    rcases hin with hin | hin
    · rcases processItem_saved gih md5 t x with h | h
      · exact Or.inl (h ▸ hin)
      · exact Or.inl (h ▸ List.mem_append_left _ hin)
    · rcases processItem_deleted gih md5 t x with h | h
      · exact Or.inr (h ▸ hin)
      · exact Or.inr (h ▸ List.mem_append_left _ hin)

/-- C10 witness: a concrete document item ends up in one of the lists, the
digest of the empty byte string is defined, and a concrete index entry holds
a non-`None` digest. -/
theorem C10_witness :
    (get_file_hash md50 []).isSome = true
    ∧ (("a.txt", some "1") ∈ (upload_files gih0 md50 [⟨"a.txt", [0]⟩]).doc_hashes →
        (("a.txt", some "1") : String × Option String).2.isSome = true)
    ∧ ("a.txt" ∈ (upload_files gih0 md50 [⟨"a.txt", [0]⟩]).saved_files
        ∨ "a.txt" ∈ (upload_files gih0 md50 [⟨"a.txt", [0]⟩]).deleted_files) :=
  ⟨(C10_theorem gih0 md50).1 [],
   fun h => (C10_theorem gih0 md50).2.1 [⟨"a.txt", [0]⟩] ("a.txt", some "1") h,
   (C10_theorem gih0 md50).2.2 [⟨"a.txt", [0]⟩] ⟨"a.txt", [0]⟩ (by decide) (by decide)⟩

/-- C1 counterexample: the claim quantifies over batches in which filenames
may repeat.  In the batch
`[("a.txt", B1), ("a.txt", B2), ("c.txt", B1)]` (distinct digests for `B1`,
`B2`), document `d1 = ("a.txt", B1)` is processed first and accepted, and
`d2 = ("c.txt", B1)` has byte-for-byte identical content, yet the duplicates
list is empty: the accepted second `"a.txt"` overwrote `d1`'s digest in the
dict, so `d2` no longer matches anything. -/
theorem C1_counterexample :
    (upload_files gih0 md50 [⟨"a.txt", [0]⟩, ⟨"a.txt", [0, 0]⟩, ⟨"c.txt", [0]⟩]).saved_files
        = ["a.txt", "a.txt", "c.txt"]
    ∧ (upload_files gih0 md50 [⟨"a.txt", [0]⟩, ⟨"a.txt", [0, 0]⟩, ⟨"c.txt", [0]⟩]).deleted_files
        = []
    ∧ md50 [0] ≠ md50 [0, 0] := by
  decide

/-- C1 (amended): for documents `d1`, `d2` with identical bytes where `d1` is
processed first and accepted, the duplicates list contains `d2`'s name —
provided no item processed between `d1` and `d2` bears `d1`'s filename
(in particular whenever filenames in the batch are distinct); with repeated
filenames a later accepted document of the same name overwrites `d1`'s digest
and `d2` can be accepted again.  "`d1` accepted" is expressed by its digest
being absent from the document index at its turn. -/
theorem C1_theorem (gih : Bytes → Option Fp) (md5 : Bytes → String)
    (pre mid post : List Item) (d1 d2 : Item)
    (hx1 : extOf d1.filename ∈ document_extensions)
    (hx2 : extOf d2.filename ∈ document_extensions)
    (hb : d2.content = d1.content)
    (hacc : get_file_hash md5 d1.content
        ∉ (upload_files gih md5 pre).doc_hashes.map Prod.snd)
    (hmid : ∀ x ∈ mid, x.filename ≠ d1.filename) :
    d2.filename
      ∈ (upload_files gih md5 (pre ++ d1 :: (mid ++ d2 :: post))).deleted_files := by
  have h1 : (d1.filename, get_file_hash md5 d1.content)
      ∈ (processItem gih md5 (upload_files gih md5 pre) d1).doc_hashes := by
    rw [processItem_doc_new gih md5 _ d1 (doc_not_image _ hx1) hx1 hacc]
    exact dictSet_self_mem _ _ _
  have h2 : (d1.filename, get_file_hash md5 d1.content)
      ∈ (mid.foldl (processItem gih md5)
          (processItem gih md5 (upload_files gih md5 pre) d1)).doc_hashes := by
    refine foldl_preserve gih md5
      (fun t => (d1.filename, get_file_hash md5 d1.content) ∈ t.doc_hashes) mid _ h1 ?_
    intro t x hx hmem
    rcases processItem_doc_hashes gih md5 t x with h | h
    · exact h ▸ hmem
    · exact h ▸ dictSet_mem_of_ne _ _ _ _ hmem (fun hc => hmid x hx hc.symm)
  have hm2 : get_file_hash md5 d2.content
      ∈ (mid.foldl (processItem gih md5)
          (processItem gih md5 (upload_files gih md5 pre) d1)).doc_hashes.map Prod.snd := by
    rw [hb]
    exact List.mem_map.2 ⟨(d1.filename, get_file_hash md5 d1.content), h2, rfl⟩
  have h3 : d2.filename ∈ (processItem gih md5
      (mid.foldl (processItem gih md5)
        (processItem gih md5 (upload_files gih md5 pre) d1)) d2).deleted_files := by
    rw [processItem_doc_dup gih md5 _ d2 (doc_not_image _ hx2) hx2 hm2]
    simp
  rw [upload_files_append, List.foldl_cons, List.foldl_append, List.foldl_cons]
  refine foldl_preserve gih md5 (fun t => d2.filename ∈ t.deleted_files) post _ h3 ?_
  intro t x _ hmem
  rcases processItem_deleted gih md5 t x with h | h
  · exact h ▸ hmem
  · exact h ▸ List.mem_append_left _ hmem

/-- C1 witness: two identical documents with distinct names, nothing in
between; the second is flagged as a duplicate. -/
theorem C1_witness :
    "b.txt" ∈ (upload_files gih0 md50
      ([] ++ ⟨"a.txt", [0]⟩ :: ([] ++ ⟨"b.txt", [0]⟩ :: []))).deleted_files :=
  C1_theorem gih0 md50 [] [] [] ⟨"a.txt", [0]⟩ ⟨"b.txt", [0]⟩
    (by decide) (by decide) rfl (by decide) (by simp)

/-- C2 counterexample: when the filename of a decodable, non-duplicate image
already keys an entry of the image index, the candidate is not appended: the
assignment `image_hashes[file.filename] = img_hash` replaces the prior entry
in place, so the index does not grow.  Here the second `"a.jpg"` is at
Hamming distance 6 from the sole stored entry, is accepted, and the index
afterwards holds one entry, not two. -/
theorem C2_counterexample :
    gih0 [1, 1, 1, 1, 1, 1] = some [true, true, true, true, true, true]
    ∧ (upload_files gih0 md50 [⟨"a.jpg", [0, 0, 0, 0, 0, 0]⟩]).image_hashes
        = [("a.jpg", [false, false, false, false, false, false])]
    ∧ ¬ hamming [true, true, true, true, true, true]
        [false, false, false, false, false, false] ≤ IMAGE_HASH_THRESHOLD
    ∧ (upload_files gih0 md50
        [⟨"a.jpg", [0, 0, 0, 0, 0, 0]⟩, ⟨"a.jpg", [1, 1, 1, 1, 1, 1]⟩]).image_hashes
        ≠ [("a.jpg", [false, false, false, false, false, false]),
           ("a.jpg", [true, true, true, true, true, true])]
    ∧ (upload_files gih0 md50
        [⟨"a.jpg", [0, 0, 0, 0, 0, 0]⟩, ⟨"a.jpg", [1, 1, 1, 1, 1, 1]⟩]).image_hashes
        = [("a.jpg", [true, true, true, true, true, true])] := by
  decide

/-- C2 (amended): for a decodable image item, if some stored entry is within
Hamming distance 5 of the candidate the item is reported a duplicate and the
state changes only by appending its name to the duplicates list (no
insertion); if every stored entry is farther than 5, the item is accepted and
the candidate is stored under its name — appended when the name is fresh,
replacing the same-named entry in place otherwise (`dictSet`). -/
theorem C2_theorem (gih : Bytes → Option Fp) (md5 : Bytes → String)
    (s : UploadState) (it : Item) (img_hash : Fp)
    (hx : extOf it.filename ∈ image_extensions)
    (hdec : gih it.content = some img_hash) :
    ((∃ e ∈ s.image_hashes, hamming img_hash e.2 ≤ IMAGE_HASH_THRESHOLD) →
        processItem gih md5 s it
          = { s with deleted_files := s.deleted_files ++ [it.filename] })
    ∧ ((∀ e ∈ s.image_hashes, ¬ hamming img_hash e.2 ≤ IMAGE_HASH_THRESHOLD) →
        processItem gih md5 s it
          = { s with image_hashes := dictSet s.image_hashes it.filename img_hash,
                     saved_files := s.saved_files ++ [it.filename] }) := by
  cases hf : s.image_hashes.find?
      (fun e => decide (hamming img_hash e.2 ≤ IMAGE_HASH_THRESHOLD)) with
  | none =>
    constructor
    · rintro ⟨e, he, hce⟩
      exact absurd (decide_eq_true hce) (List.find?_eq_none.1 hf e he)
    · intro _
      exact processItem_img_new gih md5 s it img_hash hx hdec hf
  | some e =>
    constructor
    · intro _
      exact processItem_img_dup gih md5 s it img_hash e hx hdec hf
    · intro hfar
      have hmem := List.mem_of_find?_eq_some hf
      have hp := List.find?_some hf
      exact absurd (of_decide_eq_true hp) (hfar e hmem)

/-- Every name in the accepted list is the filename of some batch item. -/
theorem upload_saved_names (gih : Bytes → Option Fp) (md5 : Bytes → String)
    (l : List Item) (x : String)
    (hx : x ∈ (upload_files gih md5 l).saved_files) : x ∈ l.map Item.filename := by
  obtain ⟨r, hr, hsub⟩ := foldl_saved_extend gih md5 l initState
  unfold upload_files at hx
  rw [hr] at hx
  rcases List.mem_append.1 hx with h | h
  · exact absurd h (List.not_mem_nil x)
  · exact hsub x h

/-- Every name in the duplicates list is the filename of some batch item. -/
theorem upload_deleted_names (gih : Bytes → Option Fp) (md5 : Bytes → String)
    (l : List Item) (x : String)
    (hx : x ∈ (upload_files gih md5 l).deleted_files) : x ∈ l.map Item.filename := by
  obtain ⟨r, hr, hsub⟩ := foldl_deleted_extend gih md5 l initState
  unfold upload_files at hx
  rw [hr] at hx
  rcases List.mem_append.1 hx with h | h
  · exact absurd h (List.not_mem_nil x)
  · exact hsub x h

/-- Processing items whose filenames are pairwise distinct and fresh for the
current state only ever appends to the two indexes. -/
theorem foldl_extends_of_fresh (gih : Bytes → Option Fp) (md5 : Bytes → String) :
    ∀ (l : List Item) (s : UploadState),
    (l.map Item.filename).Nodup →
    (∀ it ∈ l, it.filename ∉ s.image_hashes.map Prod.fst) →
    (∀ it ∈ l, it.filename ∉ s.doc_hashes.map Prod.fst) →
    (∃ r, (l.foldl (processItem gih md5) s).image_hashes = s.image_hashes ++ r)
    ∧ (∃ r, (l.foldl (processItem gih md5) s).doc_hashes = s.doc_hashes ++ r) := by
  intro l
  induction l with
  | nil =>
    intro s _ _ _
    exact ⟨⟨[], by simp⟩, ⟨[], by simp⟩⟩
  | cons a rest ih =>
    intro s hnd hfi hfd
    rw [List.map_cons, List.nodup_cons] at hnd
    obtain ⟨hhead, hnd2⟩ := hnd
    have exti : ∃ r0, (processItem gih md5 s a).image_hashes = s.image_hashes ++ r0 := by
      rcases processItem_image_hashes gih md5 s a with h | ⟨fp, _, h⟩
      · exact ⟨[], by simp [h]⟩
      · exact ⟨[(a.filename, fp)],
          by rw [h, dictSet_eq_append _ _ _ (hfi a (List.mem_cons_self _ _))]⟩
    have extd : ∃ r0, (processItem gih md5 s a).doc_hashes = s.doc_hashes ++ r0 := by
      rcases processItem_doc_hashes gih md5 s a with h | h
      · exact ⟨[], by simp [h]⟩
      · exact ⟨[(a.filename, some (md5 a.content))],
          by rw [h, dictSet_eq_append _ _ _ (hfd a (List.mem_cons_self _ _))]⟩
    have hfi2 : ∀ it ∈ rest,
        it.filename ∉ (processItem gih md5 s a).image_hashes.map Prod.fst := by
      intro it hit hmem
      rcases processItem_image_hashes gih md5 s a with h | ⟨fp, _, h⟩
      · exact hfi it (List.mem_cons_of_mem _ hit) (h ▸ hmem)
      · rcases dictSet_keys_sub s.image_hashes a.filename fp it.filename
          (h ▸ hmem) with hh | hh
        · exact hhead (hh ▸ List.mem_map_of_mem Item.filename hit)
        · exact hfi it (List.mem_cons_of_mem _ hit) hh
    have hfd2 : ∀ it ∈ rest,
        it.filename ∉ (processItem gih md5 s a).doc_hashes.map Prod.fst := by
      intro it hit hmem
      rcases processItem_doc_hashes gih md5 s a with h | h
      · exact hfd it (List.mem_cons_of_mem _ hit) (h ▸ hmem)
      · rcases dictSet_keys_sub s.doc_hashes a.filename _ it.filename
          (h ▸ hmem) with hh | hh
        · exact hhead (hh ▸ List.mem_map_of_mem Item.filename hit)
        · exact hfd it (List.mem_cons_of_mem _ hit) hh
    obtain ⟨⟨ri, hri⟩, ⟨rd, hrd⟩⟩ := ih (processItem gih md5 s a) hnd2 hfi2 hfd2
    obtain ⟨r0i, h0i⟩ := exti
    obtain ⟨r0d, h0d⟩ := extd
    refine ⟨⟨r0i ++ ri, ?_⟩, ⟨r0d ++ rd, ?_⟩⟩
    · rw [List.foldl_cons, hri, h0i, List.append_assoc]
    · rw [List.foldl_cons, hrd, h0d, List.append_assoc]

/-- C4 counterexample: with a repeated filename the index is not append-only.
After `("a.txt", B1)` is accepted, processing the non-duplicate
`("a.txt", B2)` overwrites the stored entry in place: the entry
`("a.txt", digest B1)` that had been added is gone. -/
theorem C4_counterexample :
    ("a.txt", some "1") ∈ (upload_files gih0 md50 [⟨"a.txt", [0]⟩]).doc_hashes
    ∧ ("a.txt", some "1")
        ∉ (upload_files gih0 md50 [⟨"a.txt", [0]⟩, ⟨"a.txt", [0, 0]⟩]).doc_hashes := by
  decide

/-- C4 (amended): the per-family indexes are append-only provided the batch's
filenames are pairwise distinct: at any point of the batch, the indexes built
so far are a prefix of the final ones (entries neither mutated nor removed).
When a filename repeats, an accepted later item of the same name instead
replaces the prior entry of that name in place. -/
theorem C4_theorem (gih : Bytes → Option Fp) (md5 : Bytes → String)
    (l1 l2 : List Item)
    (hnd : ((l1 ++ l2).map Item.filename).Nodup) :
    (∃ r, (upload_files gih md5 (l1 ++ l2)).image_hashes
        = (upload_files gih md5 l1).image_hashes ++ r)
    ∧ (∃ r, (upload_files gih md5 (l1 ++ l2)).doc_hashes
        = (upload_files gih md5 l1).doc_hashes ++ r) := by
  rw [List.map_append] at hnd
  have hdisj := List.disjoint_of_nodup_append hnd
  have hkeys := foldl_keys_sub gih md5 l1 initState (l1.map Item.filename)
    (by simp [initState]) (by simp [initState])
    (fun x hx => List.mem_map_of_mem Item.filename hx)
  have hfi : ∀ it ∈ l2,
      it.filename ∉ (upload_files gih md5 l1).image_hashes.map Prod.fst :=
    fun it hit hmem =>
      hdisj (hkeys.1 it.filename hmem) (List.mem_map_of_mem Item.filename hit)
  have hfd : ∀ it ∈ l2,
      it.filename ∉ (upload_files gih md5 l1).doc_hashes.map Prod.fst :=
    fun it hit hmem =>
      hdisj (hkeys.2 it.filename hmem) (List.mem_map_of_mem Item.filename hit)
  rw [upload_files_append]
  exact foldl_extends_of_fresh gih md5 l2 (upload_files gih md5 l1)
    hnd.of_append_right hfi hfd

/-- C4 witness: a distinct-names batch; later processing only appends. -/
theorem C4_witness :
    (∃ r, (upload_files gih0 md50 ([⟨"a.txt", [0]⟩] ++ [⟨"b.jpg", [2]⟩])).image_hashes
        = (upload_files gih0 md50 [⟨"a.txt", [0]⟩]).image_hashes ++ r)
    ∧ (∃ r, (upload_files gih0 md50 ([⟨"a.txt", [0]⟩] ++ [⟨"b.jpg", [2]⟩])).doc_hashes
        = (upload_files gih0 md50 [⟨"a.txt", [0]⟩]).doc_hashes ++ r) :=
  C4_theorem gih0 md50 [⟨"a.txt", [0]⟩] [⟨"b.jpg", [2]⟩] (by decide)

/-- The condition under which an item contributes to neither result list:
unsupported extension, or an image whose bytes fail to decode. -/
abbrev droppedItem (gih : Bytes → Option Fp) (it : Item) : Prop :=
  (extOf it.filename ∉ image_extensions ∧ extOf it.filename ∉ document_extensions)
  ∨ (extOf it.filename ∈ image_extensions ∧ gih it.content = none)

/-- C6 counterexample: with a repeated filename, a supported and decodable
item's name can appear in BOTH lists, not exactly one: the first `"a.jpg"` is
accepted, the identical second one is flagged duplicate, and the shared name
lands in both lists, although neither item is unsupported or undecodable. -/
theorem C6_counterexample :
    ¬ droppedItem gih0 (⟨"a.jpg", [2]⟩ : Item)
    ∧ "a.jpg" ∈ (upload_files gih0 md50 [⟨"a.jpg", [2]⟩, ⟨"a.jpg", [2]⟩]).saved_files
    ∧ "a.jpg" ∈ (upload_files gih0 md50 [⟨"a.jpg", [2]⟩, ⟨"a.jpg", [2]⟩]).deleted_files := by
  decide

/-- C6 (amended): in a batch with pairwise-distinct filenames, an item's name
is absent from both output lists exactly when its extension is in neither
table or it is an undecodable image; every other item's name appears in
exactly one of the two lists.  (With repeated filenames the name-level
statement fails, see the counterexample.) -/
theorem C6_theorem (gih : Bytes → Option Fp) (md5 : Bytes → String)
    (files : List Item) (it : Item)
    (hmem : it ∈ files) (hnd : (files.map Item.filename).Nodup) :
    (droppedItem gih it →
        it.filename ∉ (upload_files gih md5 files).saved_files
        ∧ it.filename ∉ (upload_files gih md5 files).deleted_files)
    ∧ (¬ droppedItem gih it →
        (it.filename ∈ (upload_files gih md5 files).saved_files
          ↔ it.filename ∉ (upload_files gih md5 files).deleted_files)) := by
  obtain ⟨l3, l4, rfl⟩ := List.append_of_mem hmem
  rw [List.map_append, List.map_cons] at hnd
  have hdisj := List.disjoint_of_nodup_append hnd
  have hn3 : it.filename ∉ l3.map Item.filename :=
    fun h => hdisj h (List.mem_cons_self _ _)
  have hn4 : it.filename ∉ l4.map Item.filename :=
    (List.nodup_cons.1 hnd.of_append_right).1
  have hsv3 : it.filename ∉ (upload_files gih md5 l3).saved_files :=
    fun h => hn3 (upload_saved_names gih md5 l3 it.filename h)
  have hdl3 : it.filename ∉ (upload_files gih md5 l3).deleted_files :=
    fun h => hn3 (upload_deleted_names gih md5 l3 it.filename h)
  rw [upload_files_append, List.foldl_cons]
  obtain ⟨r4s, hr4s, hsub4s⟩ := foldl_saved_extend gih md5 l4
    (processItem gih md5 (upload_files gih md5 l3) it)
  obtain ⟨r4d, hr4d, hsub4d⟩ := foldl_deleted_extend gih md5 l4
    (processItem gih md5 (upload_files gih md5 l3) it)
  have hnr4s : it.filename ∉ r4s := fun h => hn4 (hsub4s _ h)
  have hnr4d : it.filename ∉ r4d := fun h => hn4 (hsub4d _ h)
  by_cases hdrop : droppedItem gih it
  · have hstep : processItem gih md5 (upload_files gih md5 l3) it
        = upload_files gih md5 l3 :=
      processItem_skip gih md5 _ it hdrop
    refine ⟨fun _ => ⟨?_, ?_⟩, fun hc => absurd hdrop hc⟩
    · rw [hr4s, hstep]
      intro hin
      rcases List.mem_append.1 hin with h | h
      · exact hsv3 h
      · exact hnr4s h
    · rw [hr4d, hstep]
      intro hin
      rcases List.mem_append.1 hin with h | h
      · exact hdl3 h
      · exact hnr4d h
  · have hstep : ((processItem gih md5 (upload_files gih md5 l3) it).saved_files
          = (upload_files gih md5 l3).saved_files ++ [it.filename]
        ∧ (processItem gih md5 (upload_files gih md5 l3) it).deleted_files
          = (upload_files gih md5 l3).deleted_files)
      ∨ ((processItem gih md5 (upload_files gih md5 l3) it).saved_files
          = (upload_files gih md5 l3).saved_files
        ∧ (processItem gih md5 (upload_files gih md5 l3) it).deleted_files
          = (upload_files gih md5 l3).deleted_files ++ [it.filename]) := by
      by_cases hi : extOf it.filename ∈ image_extensions
      · cases hg : gih it.content with
        | none => exact absurd (Or.inr ⟨hi, hg⟩) hdrop
        | some img_hash =>
          cases hf : (upload_files gih md5 l3).image_hashes.find?
              (fun e => decide (hamming img_hash e.2 ≤ IMAGE_HASH_THRESHOLD)) with
          | some e =>
            rw [processItem_img_dup gih md5 _ it img_hash e hi hg hf]
            exact Or.inr ⟨rfl, rfl⟩
          | none =>
            rw [processItem_img_new gih md5 _ it img_hash hi hg hf]
            exact Or.inl ⟨rfl, rfl⟩
      · by_cases hd : extOf it.filename ∈ document_extensions
        · by_cases hm : get_file_hash md5 it.content
              ∈ (upload_files gih md5 l3).doc_hashes.map Prod.snd
          · rw [processItem_doc_dup gih md5 _ it hi hd hm]
            exact Or.inr ⟨rfl, rfl⟩
          · rw [processItem_doc_new gih md5 _ it hi hd hm]
            exact Or.inl ⟨rfl, rfl⟩
        · exact absurd (Or.inl ⟨hi, hd⟩) hdrop
    refine ⟨fun hc => absurd hc hdrop, fun _ => ?_⟩
    rw [hr4s, hr4d]
    rcases hstep with ⟨hs, hd2⟩ | ⟨hs, hd2⟩
    · rw [hs, hd2]
      constructor
      · intro _ hin
        rcases List.mem_append.1 hin with h | h
        · exact hdl3 h
        · exact hnr4d h
      · intro _
        exact List.mem_append_left _
          (List.mem_append_right _ (List.mem_singleton.2 rfl))
    · rw [hs, hd2]
      constructor
      · intro hin
        exfalso
        rcases List.mem_append.1 hin with h | h
        · exact hsv3 h
        · exact hnr4s h
      · intro hnin
        exfalso
        exact hnin (List.mem_append_left _
          (List.mem_append_right _ (List.mem_singleton.2 rfl)))

/-- C6 witness: in a distinct-names batch, an unsupported `.zzz` item lands
in neither list and a supported document lands in exactly one. -/
theorem C6_witness :
    ("x.zzz" ∉ (upload_files gih0 md50 [⟨"x.zzz", [0]⟩, ⟨"b.txt", [0]⟩]).saved_files
      ∧ "x.zzz" ∉ (upload_files gih0 md50 [⟨"x.zzz", [0]⟩, ⟨"b.txt", [0]⟩]).deleted_files)
    ∧ ("b.txt" ∈ (upload_files gih0 md50 [⟨"x.zzz", [0]⟩, ⟨"b.txt", [0]⟩]).saved_files
      ↔ "b.txt" ∉ (upload_files gih0 md50 [⟨"x.zzz", [0]⟩, ⟨"b.txt", [0]⟩]).deleted_files) :=
  ⟨(C6_theorem gih0 md50 [⟨"x.zzz", [0]⟩, ⟨"b.txt", [0]⟩] ⟨"x.zzz", [0]⟩
      (by decide) (by decide)).1 (by decide),
   (C6_theorem gih0 md50 [⟨"x.zzz", [0]⟩, ⟨"b.txt", [0]⟩] ⟨"b.txt", [0]⟩
      (by decide) (by decide)).2 (by decide)⟩

/-- C2 witness: a decodable image against an empty index is accepted and
stored. -/
theorem C2_witness :
    processItem gih0 md50 initState ⟨"a.jpg", [2]⟩
      = { initState with
            image_hashes := dictSet initState.image_hashes "a.jpg" [false],
            saved_files := initState.saved_files ++ ["a.jpg"] } :=
  (C2_theorem gih0 md50 initState ⟨"a.jpg", [2]⟩ [false] (by decide) (by decide)).2
    (by intro e he; cases he)

end DupPhoto
